import Mathlib

/-!
# RBCFLib VBI index subsystem — shallow embedding and verification

This file embeds, in Lean, the VBI side-index subsystem of RBCFLib:
the region parser, the index builder, the binary index codec, the
interval-index construction performed at load time, the query engine
(linear region query, interval-tree region query, contiguous
index-range query) and the record materializer, as implemented in
`src/vbi_index_capi.c`, `src/vbi_index_capi.h`, `src/RC_VBI_IOP.c`
and `tools/vbi_index.c`.

C strings are modelled as lists of byte values (`List Nat`, each
element `< 256`, with no embedded `0`); machine integers are modelled
as `Int` with explicit reduction modulo `2^32` / `2^64` exactly where
the C code casts or serializes; fallible operations return `Option`.
-/

namespace RBCFLib

/-- The contents of a C byte string (no terminating NUL included). -/
abbrev Bytes := List Nat

/-- One entry of the loaded VBI index, i.e. the `i`-th elements of the
parallel arrays `chrom_ids`, `positions`, `offsets` of `vbi_index_t`
(`src/vbi_index_capi.h`). -/
structure VbiRec where
  chrom_id : Int
  pos : Int
  offset : Int
deriving DecidableEq, Repr

instance : Inhabited VbiRec := ⟨⟨0, 0, 0⟩⟩

/-- The in-memory VBI index `vbi_index_t` (`src/vbi_index_capi.h`).
`num_marker` is kept implicitly as `recs.length` — the struct invariant
is that the three parallel arrays all have length `num_marker`, so the
record triples are modelled as one list of that length. -/
structure VbiIndex where
  num_sample : Int
  chrom_names : List Bytes
  recs : List VbiRec
deriving DecidableEq, Repr

/-- Chromosome-name lookup `idx->chrom_names[idx->chrom_ids[i]]`. -/
def chromName (idx : VbiIndex) (cid : Int) : Bytes :=
  idx.chrom_names.getD cid.toNat []

/-- A parsed region `region_t` (`src/vbi_index_capi.h`): chromosome
name, inclusive 1-based bounds, point flag. -/
structure Region where
  chrom : Bytes
  start : Int
  end_ : Int
  is_point : Bool
deriving DecidableEq, Repr

/-- The per-region test of the linear region query
(`vbi_index_query_region`, `src/vbi_index_capi.c:82-84`): chromosome
string equality and inclusive position bounds. -/
def regionMatch (r : Region) (chrom : Bytes) (pos : Int) : Bool :=
  decide (chrom = r.chrom) && decide (r.start ≤ pos) && decide (pos ≤ r.end_)

/-- Whether record `rec` matches any of the parsed regions — the inner
`for (r = 0; r < nregions; ++r)` loop with its `break` on first match. -/
def recMatches (idx : VbiIndex) (regions : List Region) (rec : VbiRec) : Bool :=
  regions.any fun r => regionMatch r (chromName idx rec.chrom_id) rec.pos

/-- The scan loop of `vbi_index_query_region` starting at record
index `i`: collects (in file order) the indices of matching records. -/
def queryRegionFrom (idx : VbiIndex) (regions : List Region) :
    Nat → List VbiRec → List Int
  | _, [] => []
  | i, rec :: rest =>
    if recMatches idx regions rec
    then (i : Int) :: queryRegionFrom idx regions (i + 1) rest
    else queryRegionFrom idx regions (i + 1) rest

/-- Linear region query `vbi_index_query_region`
(`src/vbi_index_capi.c:69-93`), taking the already-parsed regions:
for every record in file order, test it against each region and
collect matching record indices. -/
def vbi_index_query_region (idx : VbiIndex) (regions : List Region) : List Int :=
  queryRegionFrom idx regions 0 idx.recs

/-- Index-range query `vbi_index_query_index_range`
(`src/vbi_index_capi.c:96-105`): clamp `start` up to `0`, clamp `end`
down to `num_marker - 1`, empty on inversion, else the contiguous
0-based indices. -/
def vbi_index_query_index_range (num_marker : Nat) (start end_ : Int) : List Int :=
  let s := if start < 0 then 0 else start
  let e := if (num_marker : Int) ≤ end_ then (num_marker : Int) - 1 else end_
  if e < s then []
  else (List.range (e + 1 - s).toNat).map fun i : Nat => s + (i : Int)

/-- The 1-based wrapper `RC_VBI_query_by_indices_ctx`
(`src/RC_VBI_IOP.c:1266-1282`): subtract 1 from both endpoints, then
the same clamp-and-enumerate logic as `vbi_index_query_index_range`
(the wrapper inlines an identical copy of that logic). -/
def queryByIndicesRange (num_marker : Nat) (start1 end1 : Int) : List Int :=
  vbi_index_query_index_range num_marker (start1 - 1) (end1 - 1)

/-! ## Characterization lemmas for the query engine -/

theorem mem_queryRegionFrom (idx : VbiIndex) (regions : List Region) :
    ∀ (l : List VbiRec) (i : Nat) (j : Int),
      j ∈ queryRegionFrom idx regions i l ↔
        ∃ k : Nat, k < l.length ∧ j = (i : Int) + k ∧
          recMatches idx regions (l.getD k default) = true := by
  intro l
  induction l with
  | nil => intro i j; simp [queryRegionFrom]
  | cons rec rest ih =>
    intro i j
    by_cases h : recMatches idx regions rec
    · simp only [queryRegionFrom, h, if_pos, List.mem_cons, ih]
      constructor
      · rintro (rfl | ⟨k, hk, rfl, hm⟩)
        · exact ⟨0, by simp, by simp, by simpa using h⟩
        · exact ⟨k + 1, by simpa using hk, by push_cast; ring, by simpa using hm⟩
      · rintro ⟨k, hk, rfl, hm⟩
        cases k with
        | zero => left; simp
        | succ k =>
          right
          exact ⟨k, by simpa using hk, by push_cast; ring, by simpa using hm⟩
    · simp only [queryRegionFrom, h, if_neg, Bool.false_eq_true, not_false_iff, ih]
      constructor
      · rintro ⟨k, hk, rfl, hm⟩
        exact ⟨k + 1, by simpa using hk, by push_cast; ring, by simpa using hm⟩
      · rintro ⟨k, hk, rfl, hm⟩
        cases k with
        | zero => simp_all
        | succ k =>
          exact ⟨k, by simpa using hk, by push_cast; ring, by simpa using hm⟩

theorem queryRegionFrom_lower (idx : VbiIndex) (regions : List Region) :
    ∀ (l : List VbiRec) (i : Nat) (j : Int),
      j ∈ queryRegionFrom idx regions i l → (i : Int) ≤ j := by
  intro l
  induction l with
  | nil => intro i j h; simp [queryRegionFrom] at h
  | cons rec rest ih =>
    intro i j h
    by_cases hm : recMatches idx regions rec
    · simp only [queryRegionFrom, hm, if_pos, List.mem_cons] at h
      rcases h with rfl | h
      · exact le_refl _
      · have := ih (i + 1) j h
        push_cast at this ⊢
        omega
    · simp only [queryRegionFrom, hm, if_neg, Bool.false_eq_true, not_false_iff] at h
      have := ih (i + 1) j h
      push_cast at this ⊢
      omega

theorem queryRegionFrom_pairwise (idx : VbiIndex) (regions : List Region) :
    ∀ (l : List VbiRec) (i : Nat),
      (queryRegionFrom idx regions i l).Pairwise (· < ·) := by
  intro l
  induction l with
  | nil => intro i; simp [queryRegionFrom]
  | cons rec rest ih =>
    intro i
    by_cases hm : recMatches idx regions rec
    · simp only [queryRegionFrom, hm, if_pos]
      refine List.Pairwise.cons ?_ (ih (i + 1))
      intro j hj
      have := queryRegionFrom_lower idx regions rest (i + 1) j hj
      push_cast at this ⊢
      omega
    · simp only [queryRegionFrom, hm, if_neg, Bool.false_eq_true, not_false_iff]
      exact ih (i + 1)

/-- The record predicate of the specification, stated independently of
the scan: some region's chromosome equals the record's chromosome name
and the record's position lies within that region's inclusive bounds. -/
def specRegionPred (idx : VbiIndex) (regions : List Region) (rec : VbiRec) : Prop :=
  ∃ r ∈ regions, chromName idx rec.chrom_id = r.chrom ∧
    r.start ≤ rec.pos ∧ rec.pos ≤ r.end_

instance (idx : VbiIndex) (regions : List Region) (rec : VbiRec) :
    Decidable (specRegionPred idx regions rec) := by
  unfold specRegionPred; infer_instance

theorem recMatches_iff_specRegionPred (idx : VbiIndex) (regions : List Region)
    (rec : VbiRec) :
    recMatches idx regions rec = true ↔ specRegionPred idx regions rec := by
  unfold recMatches specRegionPred regionMatch
  simp [List.any_eq_true, and_assoc]

theorem mem_query_region_iff (idx : VbiIndex) (regions : List Region) (j : Int) :
    j ∈ vbi_index_query_region idx regions ↔
      ∃ k : Nat, k < idx.recs.length ∧ j = (k : Int) ∧
        specRegionPred idx regions (idx.recs.getD k default) := by
  unfold vbi_index_query_region
  rw [mem_queryRegionFrom]
  constructor
  · rintro ⟨k, hk, rfl, hm⟩
    exact ⟨k, hk, by push_cast; ring,
      (recMatches_iff_specRegionPred idx regions _).mp hm⟩
  · rintro ⟨k, hk, rfl, hm⟩
    exact ⟨k, hk, by push_cast; ring,
      (recMatches_iff_specRegionPred idx regions _).mpr hm⟩

theorem mem_range_map_add (s : Int) (k : Nat) (j : Int) :
    (j ∈ (List.range k).map fun i : Nat => s + (i : Int)) ↔ s ≤ j ∧ j < s + k := by
  simp only [List.mem_map, List.mem_range]
  constructor
  · rintro ⟨i, hi, rfl⟩
    omega
  · rintro ⟨h1, h2⟩
    refine ⟨(j - s).toNat, by omega, by omega⟩

theorem pairwise_range_map_add (s : Int) (k : Nat) :
    ((List.range k).map fun i : Nat => s + (i : Int)).Pairwise (· < ·) := by
  refine List.Pairwise.map _ (fun a b hab => ?_) (List.pairwise_lt_range k)
  omega

/-! ## C3: index-range query bounds and ordering -/

/-- **C3.** For every index with `num_marker` records and every 1-based
inclusive pair `(start1, end1)`, the index-range query converts both to
0-based, clamps the start up to `0` and the end down to
`num_marker - 1`, returns the empty result when the clamped end is
below the clamped start (an inverted range is not an error), and
otherwise returns exactly the contiguous 0-based record ids from the
clamped start to the clamped end in ascending order. -/
theorem index_range_query_clamps_and_orders (num_marker : Nat) (start1 end1 : Int) :
    (∀ j : Int, j ∈ queryByIndicesRange num_marker start1 end1 ↔
       max (start1 - 1) 0 ≤ j ∧ j ≤ min (end1 - 1) ((num_marker : Int) - 1)) ∧
    (queryByIndicesRange num_marker start1 end1).Pairwise (· < ·) ∧
    (min (end1 - 1) ((num_marker : Int) - 1) < max (start1 - 1) 0 →
       queryByIndicesRange num_marker start1 end1 = []) := by
  unfold queryByIndicesRange vbi_index_query_index_range
  set s0 := start1 - 1 with hs0
  set e0 := end1 - 1 with he0
  set s := if s0 < 0 then 0 else s0 with hs
  set e := if (num_marker : Int) ≤ e0 then (num_marker : Int) - 1 else e0 with he
  have hsmax : s = max s0 0 := by
    rw [hs]; split <;> omega
  have hemin : e = min e0 ((num_marker : Int) - 1) := by
    rw [he]; split <;> omega
  by_cases hlt : e < s
  · simp only [if_pos hlt]
    refine ⟨?_, List.Pairwise.nil, fun _ => trivial⟩
    intro j
    simp only [List.not_mem_nil, false_iff]
    omega
  · simp only [if_neg hlt]
    have hk : ((e + 1 - s).toNat : Int) = e + 1 - s := by
      rw [Int.toNat_of_nonneg]; omega
    refine ⟨?_, pairwise_range_map_add s _, by intro hcon; omega⟩
    intro j
    rw [mem_range_map_add]
    omega

/-! ## C4: linear region query correctness -/

/-- **C4.** For every index and every list of parsed regions, the
linear region query returns exactly the (0-based) ids of the records
whose chromosome name is string-equal to some region's chromosome and
whose position lies within that region's inclusive bounds, and the
returned ids appear in file order (strictly ascending record id). -/
theorem region_query_linear_correct (idx : VbiIndex) (regions : List Region) :
    (∀ j : Int, j ∈ vbi_index_query_region idx regions ↔
       ∃ k : Nat, k < idx.recs.length ∧ j = (k : Int) ∧
         specRegionPred idx regions (idx.recs.getD k default)) ∧
    (vbi_index_query_region idx regions).Pairwise (· < ·) := by
  exact ⟨fun j => mem_query_region_iff idx regions j,
    queryRegionFrom_pairwise idx regions idx.recs 0⟩

/-! ## Interval index (cgranges) built at load time -/

/-- The C cast `(int32_t)x` applied to an `int64_t` value: two's-complement
truncation modulo `2^32` into `[-2^31, 2^31)`. -/
def toInt32 (p : Int) : Int := (p + 2 ^ 31) % 2 ^ 32 - 2 ^ 31

/-- One stored interval of the cgranges structure: contig name, start,
end, label — the arguments of `cr_add`. -/
structure CrEntry where
  ctg : Bytes
  st : Int
  en : Int
  label : Int
deriving DecidableEq, Repr

instance : Inhabited CrEntry := ⟨⟨[], 0, 0, 0⟩⟩

/-- The cgranges build loop of `vbi_index_load`
(`src/vbi_index_capi.c:247-251`): for each record `i` one interval
`cr_add(cr, chrom_names[chrom_ids[i]], (int32_t)positions[i],
(int32_t)positions[i], i)`. -/
def crAddFrom (idx : VbiIndex) : Nat → List VbiRec → List CrEntry
  | _, [] => []
  | i, rec :: rest =>
    ⟨chromName idx rec.chrom_id, toInt32 rec.pos, toInt32 rec.pos, (i : Int)⟩ ::
      crAddFrom idx (i + 1) rest

/-- The interval index built eagerly by `vbi_index_load` over the whole
record list. -/
def vbi_index_cr (idx : VbiIndex) : List CrEntry := crAddFrom idx 0 idx.recs

/-- Modelled from the spec: `vbi_index_query_region_cgranges` is declared
in `src/vbi_index_capi.h:63` and called by `RC_VBI_query_region_cgranges_ctx`
(`src/RC_VBI_IOP.c:1301`), but its definition — and the cgranges overlap
query it delegates to — is not among the given sources.  Per §4.5 of the
spec the tree-accelerated region query "resolves the same predicate via
the Interval Index": it returns the labels of the interval-index entries
(built by `vbi_index_load`, hence carrying int32-truncated positions)
whose stored interval lies inclusively within some queried region. -/
def vbi_index_query_region_cgranges (idx : VbiIndex) (regions : List Region) : List Int :=
  (vbi_index_cr idx).filterMap fun e =>
    if regions.any fun r =>
        decide (e.ctg = r.chrom) && decide (r.start ≤ e.st) && decide (e.en ≤ r.end_)
    then some e.label else none

/-- The record predicate actually resolved by the interval index: the
region test applied to the int32-truncated stored position. -/
def crPred (idx : VbiIndex) (regions : List Region) (rec : VbiRec) : Prop :=
  ∃ r ∈ regions, chromName idx rec.chrom_id = r.chrom ∧
    r.start ≤ toInt32 rec.pos ∧ toInt32 rec.pos ≤ r.end_

instance (idx : VbiIndex) (regions : List Region) (rec : VbiRec) :
    Decidable (crPred idx regions rec) := by
  unfold crPred; infer_instance

theorem mem_crQuery_from (idx : VbiIndex) (regions : List Region) :
    ∀ (l : List VbiRec) (i : Nat) (j : Int),
      (j ∈ (crAddFrom idx i l).filterMap fun e =>
          if regions.any fun r =>
              decide (e.ctg = r.chrom) && decide (r.start ≤ e.st) &&
                decide (e.en ≤ r.end_)
          then some e.label else none) ↔
        ∃ k : Nat, k < l.length ∧ j = (i : Int) + k ∧
          crPred idx regions (l.getD k default) := by
  intro l
  induction l with
  | nil => intro i j; simp [crAddFrom]
  | cons rec rest ih =>
    intro i j
    have hpred : (regions.any fun r =>
        decide (chromName idx rec.chrom_id = r.chrom) &&
          decide (r.start ≤ toInt32 rec.pos) &&
          decide (toInt32 rec.pos ≤ r.end_)) = true ↔
        crPred idx regions rec := by
      unfold crPred
      simp [List.any_eq_true, and_assoc]
    by_cases h : crPred idx regions rec
    · simp only [crAddFrom, List.filterMap_cons, hpred.mpr h, if_pos,
        List.mem_cons, ih]
      constructor
      · rintro (rfl | ⟨k, hk, rfl, hm⟩)
        · exact ⟨0, by simp, by simp, by simpa using h⟩
        · exact ⟨k + 1, by simpa using hk, by push_cast; ring, by simpa using hm⟩
      · rintro ⟨k, hk, rfl, hm⟩
        cases k with
        | zero => left; simp
        | succ k =>
          right
          exact ⟨k, by simpa using hk, by push_cast; ring, by simpa using hm⟩
    · have h' : (regions.any fun r =>
          decide (chromName idx rec.chrom_id = r.chrom) &&
            decide (r.start ≤ toInt32 rec.pos) &&
            decide (toInt32 rec.pos ≤ r.end_)) = false := by
        rcases Bool.eq_false_or_eq_true (regions.any fun r =>
          decide (chromName idx rec.chrom_id = r.chrom) &&
            decide (r.start ≤ toInt32 rec.pos) &&
            decide (toInt32 rec.pos ≤ r.end_)) with ht | hf
        · exact absurd (hpred.mp ht) h
        · exact hf
      simp only [crAddFrom, List.filterMap_cons, h', if_neg, Bool.false_eq_true,
        not_false_iff, ih]
      constructor
      · rintro ⟨k, hk, rfl, hm⟩
        exact ⟨k + 1, by simpa using hk, by push_cast; ring, by simpa using hm⟩
      · rintro ⟨k, hk, rfl, hm⟩
        cases k with
        | zero => simp_all
        | succ k =>
          exact ⟨k, by simpa using hk, by push_cast; ring, by simpa using hm⟩

theorem mem_query_region_cgranges_iff (idx : VbiIndex) (regions : List Region)
    (j : Int) :
    j ∈ vbi_index_query_region_cgranges idx regions ↔
      ∃ k : Nat, k < idx.recs.length ∧ j = (k : Int) ∧
        crPred idx regions (idx.recs.getD k default) := by
  unfold vbi_index_query_region_cgranges vbi_index_cr
  rw [mem_crQuery_from]
  constructor
  · rintro ⟨k, hk, rfl, hm⟩
    exact ⟨k, hk, by push_cast; ring, hm⟩
  · rintro ⟨k, hk, rfl, hm⟩
    exact ⟨k, hk, by push_cast; ring, hm⟩

/-! ## C8: int32 truncation of positions in the interval index -/

theorem crAddFrom_getD (idx : VbiIndex) :
    ∀ (l : List VbiRec) (i k : Nat), k < l.length →
      (crAddFrom idx i l).getD k default =
        ⟨chromName idx (l.getD k default).chrom_id,
         toInt32 (l.getD k default).pos,
         toInt32 (l.getD k default).pos, ((i + k : Nat) : Int)⟩ := by
  intro l
  induction l with
  | nil => intro i k hk; simp at hk
  | cons rec rest ih =>
    intro i k hk
    cases k with
    | zero => simp [crAddFrom]
    | succ k =>
      have := ih (i + 1) k (by simpa using hk)
      simp only [crAddFrom, List.getD_cons_succ, this]
      congr 1
      push_cast
      ring

/-- **C8.** When the interval index is built at load time, the `i`-th
record's interval is inserted with contig equal to the record's
chromosome name and start and end both equal to the record's 64-bit
position cast to a signed 32-bit integer; a position of at most
`2^31 - 1` (and at least `0`) is stored unchanged, while a larger
position is stored truncated modulo `2^32` (hence unequal to itself) —
even though the linear region query tests the full 64-bit position. -/
theorem interval_index_truncates_positions_to_int32
    (idx : VbiIndex) (i : Nat) (h : i < idx.recs.length) :
    (vbi_index_cr idx).getD i default =
      ⟨chromName idx (idx.recs.getD i default).chrom_id,
       toInt32 (idx.recs.getD i default).pos,
       toInt32 (idx.recs.getD i default).pos, (i : Int)⟩ ∧
    (0 ≤ (idx.recs.getD i default).pos →
       (idx.recs.getD i default).pos ≤ 2 ^ 31 - 1 →
       toInt32 (idx.recs.getD i default).pos = (idx.recs.getD i default).pos) ∧
    (2 ^ 31 - 1 < (idx.recs.getD i default).pos →
       toInt32 (idx.recs.getD i default).pos % 2 ^ 32 =
         (idx.recs.getD i default).pos % 2 ^ 32 ∧
       toInt32 (idx.recs.getD i default).pos ≠ (idx.recs.getD i default).pos) ∧
    (∀ regions : List Region,
       ((i : Int) ∈ vbi_index_query_region idx regions ↔
         specRegionPred idx regions (idx.recs.getD i default))) := by
  refine ⟨?_, ?_, ?_, ?_⟩
  · have := crAddFrom_getD idx idx.recs 0 i h
    simpa [vbi_index_cr] using this
  · intro h0 h1
    unfold toInt32
    omega
  · intro h1
    unfold toInt32
    constructor <;> omega
  · intro regions
    rw [mem_query_region_iff]
    constructor
    · rintro ⟨k, hk, hik, hm⟩
      have : k = i := by omega
      subst this
      exact hm
    · intro hm
      exact ⟨i, h, rfl, hm⟩

def c8Idx : VbiIndex := ⟨0, [[99]], [⟨0, 2 ^ 31, 0⟩]⟩

/-- Witness for C8: a record at position `2^31` is inserted into the
interval index with start and end `-2^31`. -/
theorem interval_index_truncates_positions_to_int32_witness :
    (vbi_index_cr c8Idx).getD 0 default = ⟨[99], -(2 ^ 31), -(2 ^ 31), 0⟩ := by
  have h := interval_index_truncates_positions_to_int32 c8Idx 0 (by decide)
  rw [h.1]
  decide

/-! ## C1: linear vs tree-accelerated region query -/

def c1Idx : VbiIndex := ⟨0, [[99]], [⟨0, 2 ^ 31, 0⟩]⟩

def c1Reg : Region := ⟨[99], 2 ^ 31, 2 ^ 31, true⟩

/-- Counterexample to C1 as stated: for the loaded index holding one
record on chromosome `"c"` at position `2^31` and the region
`c:2147483648-2147483648`, the linear region query returns record id 0
but the tree-accelerated query (whose stored interval was truncated to
`-2^31` by `vbi_index_load`) does not, so the two hit sets differ. -/
theorem region_query_tree_linear_disagree :
    (0 : Int) ∈ vbi_index_query_region c1Idx [c1Reg] ∧
    (0 : Int) ∉ vbi_index_query_region_cgranges c1Idx [c1Reg] := by
  decide

/-- **C1 (amended).** Provided every record position is exact under the
int32 cast performed at load time (in particular whenever all positions
lie in `[0, 2^31 - 1]`), the set of record ids returned by the linear
region query equals the set returned by the tree-accelerated region
query, and both equal the set of records whose chromosome name equals
some queried region's chromosome and whose position lies within that
region's inclusive bounds. -/
theorem region_query_tree_equals_linear
    (idx : VbiIndex) (regions : List Region)
    (hfit : ∀ rec ∈ idx.recs, toInt32 rec.pos = rec.pos) :
    (∀ j : Int, j ∈ vbi_index_query_region_cgranges idx regions ↔
       j ∈ vbi_index_query_region idx regions) ∧
    (∀ j : Int, j ∈ vbi_index_query_region idx regions ↔
       ∃ k : Nat, k < idx.recs.length ∧ j = (k : Int) ∧
         specRegionPred idx regions (idx.recs.getD k default)) := by
  have hpred : ∀ k : Nat, k < idx.recs.length →
      (crPred idx regions (idx.recs.getD k default) ↔
        specRegionPred idx regions (idx.recs.getD k default)) := by
    intro k hk
    have hmem : idx.recs.getD k default ∈ idx.recs := by
      rw [List.getD_eq_getElem _ _ hk]
      exact List.getElem_mem hk
    have hfix := hfit _ hmem
    unfold crPred specRegionPred
    rw [hfix]
  constructor
  · intro j
    rw [mem_query_region_cgranges_iff, mem_query_region_iff]
    constructor
    · rintro ⟨k, hk, rfl, hm⟩
      exact ⟨k, hk, rfl, (hpred k hk).mp hm⟩
    · rintro ⟨k, hk, rfl, hm⟩
      exact ⟨k, hk, rfl, (hpred k hk).mpr hm⟩
  · intro j
    exact mem_query_region_iff idx regions j

def c1wIdx : VbiIndex := ⟨0, [[99]], [⟨0, 100, 0⟩]⟩

def c1wReg : Region := ⟨[99], 50, 200, false⟩

/-- Witness for the amended C1 at a concrete in-range index. -/
theorem region_query_tree_equals_linear_witness :
    ((0 : Int) ∈ vbi_index_query_region_cgranges c1wIdx [c1wReg] ↔
      (0 : Int) ∈ vbi_index_query_region c1wIdx [c1wReg]) ∧
    (0 : Int) ∈ vbi_index_query_region c1wIdx [c1wReg] := by
  refine ⟨(region_query_tree_equals_linear c1wIdx [c1wReg] (by decide)).1 0, by decide⟩

/-! ## Index codec: binary serialization (`do_index` write part) and
`vbi_index_load` -/

/-- Little-endian bytes of `v mod 256^k`, on exactly `k` bytes — the
byte image `fwrite` leaves for a `k`-byte integer on a little-endian
machine. -/
def leBytes : Nat → Nat → List Nat
  | 0, _ => []
  | k + 1, v => v % 256 :: leBytes k (v / 256)

/-- Value of a little-endian byte list. -/
def leVal : List Nat → Nat
  | [] => 0
  | b :: bs => b + 256 * leVal bs

/-- Serialize a signed `8*w`-bit integer in two's complement, little
endian — the bytes `fwrite(&x, w, 1, f)` writes. -/
def encInt (w : Nat) (v : Int) : List Nat := leBytes w (v % 2 ^ (8 * w)).toNat

/-- Decode `w` little-endian bytes as a signed two's-complement
integer — what `fread(&x, w, 1, f)` reconstructs. -/
def decInt (w : Nat) (bs : List Nat) : Int :=
  let u := leVal bs
  if u < 2 ^ (8 * w - 1) then (u : Int) else (u : Int) - 2 ^ (8 * w)

/-- `fread` of `k` raw bytes: fails when fewer than `k` remain
(truncated input). -/
def rdBytes (k : Nat) (bs : List Nat) : Option (List Nat × List Nat) :=
  if k ≤ bs.length then some (bs.take k, bs.drop k) else none

/-- `fread` of one `w`-byte signed integer. -/
def rdInt (w : Nat) (bs : List Nat) : Option (Int × List Nat) :=
  (rdBytes w bs).map fun p => (decInt w p.1, p.2)

/-- The index-file byte stream produced by the write part of `do_index`
(`src/vbi_index_capi.c:192-208`): `num_sample` (int64), `num_marker`
(int64), chromosome-table length (int32), per-name `(length:int32,
bytes)`, then per-record `(chrom_id:int32, position:int64,
offset:int64)`.  `strlen(chrom_names[i])` equals the byte-list length
because a C string holds no NUL byte. -/
def do_index_write (idx : VbiIndex) : List Nat :=
  encInt 8 idx.num_sample ++ encInt 8 (idx.recs.length : Int) ++
    encInt 4 (idx.chrom_names.length : Int) ++
    (idx.chrom_names.flatMap fun nm => encInt 4 (nm.length : Int) ++ nm) ++
    idx.recs.flatMap fun r => encInt 4 r.chrom_id ++ encInt 8 r.pos ++ encInt 8 r.offset

/-- The chromosome-table read loop of `vbi_index_load`
(`src/vbi_index_capi.c:228-234`).  A negative stored length makes
`fread(..., len, ...)` receive a huge `size_t` and fail. -/
def readNames : Nat → List Nat → Option (List Bytes × List Nat)
  | 0, bs => some ([], bs)
  | k + 1, bs => do
    let (len, bs1) ← rdInt 4 bs
    if len < 0 then none
    else do
      let (nm, bs2) ← rdBytes len.toNat bs1
      let (ns, bs3) ← readNames k bs2
      some (nm :: ns, bs3)

/-- The record-triple read loop of `vbi_index_load`
(`src/vbi_index_capi.c:240-244`). -/
def readRecs : Nat → List Nat → Option (List VbiRec × List Nat)
  | 0, bs => some ([], bs)
  | k + 1, bs => do
    let (cid, bs1) ← rdInt 4 bs
    let (pos, bs2) ← rdInt 8 bs1
    let (off, bs3) ← rdInt 8 bs2
    let (rs, bs4) ← readRecs k bs3
    some (⟨cid, pos, off⟩ :: rs, bs4)

/-- `vbi_index_load` (`src/vbi_index_capi.c:217-264`) on a byte
stream: header fields, chromosome table (the loop runs zero times for
a non-positive count), then `num_marker` record triples (a negative
`num_marker` becomes a huge `size_t` whose allocation fails). -/
def vbi_index_load (bytes : List Nat) : Option VbiIndex := do
  let (ns, b1) ← rdInt 8 bytes
  let (nm, b2) ← rdInt 8 b1
  let (nc, b3) ← rdInt 4 b2
  let (names, b4) ← readNames nc.toNat b3
  if nm < 0 then none
  else do
    let (rs, _) ← readRecs nm.toNat b4
    some ⟨ns, names, rs⟩

/-- Well-formedness of an in-memory index with respect to the fixed-width
binary fields: every serialized quantity fits its field, and the
chromosome names are valid C strings (non-NUL bytes). -/
def wfIndex (idx : VbiIndex) : Prop :=
  -(2 ^ 63) ≤ idx.num_sample ∧ idx.num_sample < 2 ^ 63 ∧
  idx.recs.length < 2 ^ 63 ∧
  idx.chrom_names.length < 2 ^ 31 ∧
  (∀ nm ∈ idx.chrom_names, nm.length < 2 ^ 31 ∧ ∀ b ∈ nm, 0 < b ∧ b < 256) ∧
  ∀ r ∈ idx.recs,
    -(2 ^ 31) ≤ r.chrom_id ∧ r.chrom_id < 2 ^ 31 ∧
    -(2 ^ 63) ≤ r.pos ∧ r.pos < 2 ^ 63 ∧
    -(2 ^ 63) ≤ r.offset ∧ r.offset < 2 ^ 63

instance (idx : VbiIndex) : Decidable (wfIndex idx) := by
  unfold wfIndex; infer_instance

theorem leBytes_length (k v : Nat) : (leBytes k v).length = k := by
  induction k generalizing v with
  | zero => rfl
  | succ k ih => simp [leBytes, ih]

theorem leVal_leBytes (k v : Nat) : leVal (leBytes k v) = v % 256 ^ k := by
  induction k generalizing v with
  | zero => simp [leBytes, leVal, Nat.mod_one]
  | succ k ih =>
    simp only [leBytes, leVal, ih]
    rw [pow_succ', Nat.mod_mul]

theorem encInt_length (w : Nat) (v : Int) : (encInt w v).length = w :=
  leBytes_length w _

theorem decInt_encInt4 (v : Int) (hlo : -(2 ^ 31) ≤ v) (hhi : v < 2 ^ 31) :
    decInt 4 (encInt 4 v) = v := by
  unfold decInt encInt
  rw [leVal_leBytes]
  norm_num
  split <;> omega

theorem decInt_encInt8 (v : Int) (hlo : -(2 ^ 63) ≤ v) (hhi : v < 2 ^ 63) :
    decInt 8 (encInt 8 v) = v := by
  unfold decInt encInt
  rw [leVal_leBytes]
  norm_num
  split <;> omega

theorem rdBytes_exact (bs rest : List Nat) :
    rdBytes bs.length (bs ++ rest) = some (bs, rest) := by
  unfold rdBytes
  rw [if_pos (by simp)]
  simp

theorem rdInt_exact (w : Nat) (chunk rest : List Nat) (hlen : chunk.length = w) :
    rdInt w (chunk ++ rest) = some (decInt w chunk, rest) := by
  unfold rdInt
  rw [← hlen, rdBytes_exact]
  rfl

theorem rdInt_encInt4 (v : Int) (rest : List Nat)
    (hlo : -(2 ^ 31) ≤ v) (hhi : v < 2 ^ 31) :
    rdInt 4 (encInt 4 v ++ rest) = some (v, rest) := by
  rw [rdInt_exact 4 _ _ (encInt_length 4 v), decInt_encInt4 v hlo hhi]

theorem rdInt_encInt8 (v : Int) (rest : List Nat)
    (hlo : -(2 ^ 63) ≤ v) (hhi : v < 2 ^ 63) :
    rdInt 8 (encInt 8 v ++ rest) = some (v, rest) := by
  rw [rdInt_exact 8 _ _ (encInt_length 8 v), decInt_encInt8 v hlo hhi]

theorem readNames_write (names : List Bytes) (rest : List Nat)
    (h : ∀ nm ∈ names, nm.length < 2 ^ 31) :
    readNames names.length
        ((names.flatMap fun nm => encInt 4 (nm.length : Int) ++ nm) ++ rest) =
      some (names, rest) := by
  induction names with
  | nil => simp [readNames]
  | cons nm ns ih =>
    have hnm : (nm.length : Int) < 2 ^ 31 := by
      have := h nm (by simp)
      exact_mod_cast this
    simp only [List.flatMap_cons, List.length_cons, List.append_assoc]
    rw [readNames]
    rw [rdInt_encInt4 _ _ (by omega) hnm]
    simp only [Option.bind_eq_bind, Option.some_bind]
    rw [if_neg (by omega)]
    have htn : ((nm.length : Int)).toNat = nm.length := by simp
    rw [htn, rdBytes_exact]
    simp only [Option.bind_eq_bind, Option.some_bind]
    rw [ih (fun x hx => h x (by simp [hx]))]
    rfl

theorem readRecs_write (recs : List VbiRec) (rest : List Nat)
    (h : ∀ r ∈ recs,
      -(2 ^ 31) ≤ r.chrom_id ∧ r.chrom_id < 2 ^ 31 ∧
      -(2 ^ 63) ≤ r.pos ∧ r.pos < 2 ^ 63 ∧
      -(2 ^ 63) ≤ r.offset ∧ r.offset < 2 ^ 63) :
    readRecs recs.length
        ((recs.flatMap fun r =>
          encInt 4 r.chrom_id ++ encInt 8 r.pos ++ encInt 8 r.offset) ++ rest) =
      some (recs, rest) := by
  induction recs with
  | nil => simp [readRecs]
  | cons r rs ih =>
    obtain ⟨h1, h2, h3, h4, h5, h6⟩ := h r (by simp)
    simp only [List.flatMap_cons, List.length_cons, List.append_assoc] at ih ⊢
    rw [readRecs]
    rw [rdInt_encInt4 _ _ (by omega) (by omega)]
    simp only [Option.bind_eq_bind, Option.some_bind]
    rw [rdInt_encInt8 _ _ (by omega) (by omega)]
    simp only [Option.bind_eq_bind, Option.some_bind]
    rw [rdInt_encInt8 _ _ (by omega) (by omega)]
    simp only [Option.bind_eq_bind, Option.some_bind]
    rw [ih (fun x hx => h x (by simp [hx]))]
    rfl

/-- **C2.** For every well-formed index, serializing it with the
builder's codec and immediately loading the resulting byte stream
reproduces `sample_count`, `record_count`, every
`chrom_id`/`position`/`offset` triple, and the full chromosome table
exactly. -/
theorem index_codec_round_trip (idx : VbiIndex) (h : wfIndex idx) :
    vbi_index_load (do_index_write idx) = some idx := by
  obtain ⟨h1, h2, h3, h4, h5, h6⟩ := h
  unfold vbi_index_load do_index_write
  simp only [List.append_assoc]
  rw [rdInt_encInt8 _ _ (by omega) (by omega)]
  simp only [Option.bind_eq_bind, Option.some_bind]
  rw [rdInt_encInt8 _ _ (by omega) (by omega)]
  simp only [Option.bind_eq_bind, Option.some_bind]
  rw [rdInt_encInt4 _ _ (by omega) (by omega)]
  simp only [Option.bind_eq_bind, Option.some_bind]
  have htn : ((idx.chrom_names.length : Int)).toNat = idx.chrom_names.length := by simp
  rw [htn, readNames_write _ _ (fun nm hnm => (h5 nm hnm).1)]
  simp only [Option.bind_eq_bind, Option.some_bind]
  rw [if_neg (by omega)]
  have htm : ((idx.recs.length : Int)).toNat = idx.recs.length := by simp
  rw [htm]
  have hrr := readRecs_write idx.recs [] h6
  rw [List.append_nil] at hrr
  simp only [List.append_assoc] at hrr
  rw [hrr]
  rfl

def c2wIdx : VbiIndex := ⟨3, [[99, 104, 114, 49], [99, 104, 114, 50]], [⟨0, 100, 123⟩, ⟨1, 7, 456⟩]⟩

/-- Witness for C2 at a concrete two-record, two-chromosome index. -/
theorem index_codec_round_trip_witness :
    vbi_index_load (do_index_write c2wIdx) = some c2wIdx :=
  index_codec_round_trip c2wIdx (by decide)

/-- Witness for C3: on a 10-record index the inverted 1-based range
`(8, 3)` yields zero rows rather than an error. -/
theorem index_range_query_clamps_and_orders_witness :
    queryByIndicesRange 10 8 3 = [] :=
  (index_range_query_clamps_and_orders 10 8 3).2.2 (by decide)

def c4wIdx : VbiIndex := ⟨0, [[99]], [⟨0, 100, 0⟩, ⟨0, 300, 10⟩]⟩

def c4wReg : Region := ⟨[99], 50, 200, false⟩

/-- Witness for C4 at a concrete two-record index: record 0 (position
100, inside the region) is returned and the hit list is ascending. -/
theorem region_query_linear_correct_witness :
    (0 : Int) ∈ vbi_index_query_region c4wIdx [c4wReg] ∧
    (vbi_index_query_region c4wIdx [c4wReg]).Pairwise (· < ·) :=
  ⟨((region_query_linear_correct c4wIdx [c4wReg]).1 0).mpr
      ⟨0, by decide, by decide, by decide⟩,
    (region_query_linear_correct c4wIdx [c4wReg]).2⟩

/-! ## Index builder: offset capture (C5)

The builder is modelled against an abstract source stream: the header
occupies `hdrSize` bytes and record `i` occupies `sizes[i]` bytes, laid
out consecutively.  `bgzf_tell` returns the current position and
`bcf_read` advances past exactly one record. -/

/-- Stream position of the start of record `i`. -/
def recordStart (hdrSize : Nat) (sizes : List Nat) (i : Nat) : Nat :=
  hdrSize + (sizes.take i).sum

/-- The offset-capture loop of the library builder `do_index`
(`src/vbi_index_capi.c:156-184`): at each iteration `bgzf_tell` is read
BEFORE `bcf_read` decodes the record, and that value is stored. -/
def do_index_offsets : List Nat → Nat → List Nat
  | [], _ => []
  | s :: rest, pos => pos :: do_index_offsets rest (pos + s)

/-- The offset-capture loop of the standalone tool's copy of `do_index`
(`src/tools/vbi_index.c:222-248`): there `bgzf_tell` is read only AFTER
`bcf_read` has decoded the record, and that value is stored. -/
def tool_do_index_offsets : List Nat → Nat → List Nat
  | [], _ => []
  | s :: rest, pos => (pos + s) :: tool_do_index_offsets rest (pos + s)

/-- Replay: seek to stream position `p` and decode one record — the
scan from position `pos`, record index `i`, yielding the index of the
record that starts exactly at `p`, if any. -/
def seekDecodeFrom (p : Nat) : List Nat → Nat → Nat → Option Nat
  | [], _, _ => none
  | s :: rest, pos, i =>
    if pos = p then some i else seekDecodeFrom p rest (pos + s) (i + 1)

/-- Seek to `p` in the modelled stream and decode one record. -/
def decodeOneAt (hdrSize : Nat) (sizes : List Nat) (p : Nat) : Option Nat :=
  seekDecodeFrom p sizes hdrSize 0

theorem do_index_offsets_getD (sizes : List Nat) :
    ∀ (pos i : Nat), i < sizes.length →
      (do_index_offsets sizes pos).getD i 0 = pos + (sizes.take i).sum := by
  induction sizes with
  | nil => intro pos i hi; simp at hi
  | cons s rest ih =>
    intro pos i hi
    cases i with
    | zero => simp [do_index_offsets]
    | succ i =>
      have := ih (pos + s) i (by simpa using hi)
      simp only [do_index_offsets, List.getD_cons_succ, this, List.take_succ_cons,
        List.sum_cons]
      omega

theorem do_index_offsets_lower (sizes : List Nat) :
    ∀ (pos v : Nat), v ∈ do_index_offsets sizes pos → pos ≤ v := by
  induction sizes with
  | nil => intro pos v h; simp [do_index_offsets] at h
  | cons s rest ih =>
    intro pos v h
    simp only [do_index_offsets, List.mem_cons] at h
    rcases h with rfl | h
    · exact le_refl _
    · have := ih (pos + s) v h
      omega

theorem do_index_offsets_length (sizes : List Nat) :
    ∀ pos : Nat, (do_index_offsets sizes pos).length = sizes.length := by
  induction sizes with
  | nil => intro pos; rfl
  | cons s rest ih => intro pos; simp [do_index_offsets, ih]

theorem seekDecodeFrom_offsets (sizes : List Nat) :
    ∀ (pos i0 k : Nat), k < sizes.length → (∀ s ∈ sizes, 0 < s) →
      seekDecodeFrom ((do_index_offsets sizes pos).getD k 0) sizes pos i0 =
        some (i0 + k) := by
  induction sizes with
  | nil => intro pos i0 k hk _; simp at hk
  | cons s rest ih =>
    intro pos i0 k hk hpos
    cases k with
    | zero =>
      simp [do_index_offsets, seekDecodeFrom]
    | succ k =>
      have hk' : k < rest.length := by simpa using hk
      have hlen : k < (do_index_offsets rest (pos + s)).length := by
        rw [do_index_offsets_length]; exact hk'
      have hmem : (do_index_offsets rest (pos + s)).getD k 0 ∈
          do_index_offsets rest (pos + s) := by
        rw [List.getD_eq_getElem _ _ hlen]
        exact List.getElem_mem hlen
      have hlow := do_index_offsets_lower rest (pos + s) _ hmem
      have hs : 0 < s := hpos s (by simp)
      simp only [do_index_offsets, List.getD_cons_succ, seekDecodeFrom]
      rw [if_neg (by omega)]
      have := ih (pos + s) (i0 + 1) k hk' (fun x hx => hpos x (by simp [hx]))
      rw [this]
      congr 1
      omega

/-- **C5.** The library builder (`src/vbi_index_capi.c`) captures
`bgzf_tell` before decoding, so `offset[i]` is the stream position of
the start of record `i`, and a replay seek to `offset[i]` followed by
one decode yields record `i`.  The standalone tool's copy of
`do_index` (`src/tools/vbi_index.c:245-246`) instead reads `bgzf_tell`
after `bcf_read`: on a file with a 100-byte header and record sizes
`[10, 20]` it stores the end-of-record positions `[110, 130]` rather
than the starts `[100, 110]`, and replaying its first stored offset
decodes record 1, not record 0. -/
theorem builder_offsets_capture_before_decode :
    (∀ (hdrSize : Nat) (sizes : List Nat) (i : Nat), i < sizes.length →
       (do_index_offsets sizes hdrSize).getD i 0 = recordStart hdrSize sizes i) ∧
    (∀ (hdrSize : Nat) (sizes : List Nat) (i : Nat), i < sizes.length →
       (∀ s ∈ sizes, 0 < s) →
       decodeOneAt hdrSize sizes ((do_index_offsets sizes hdrSize).getD i 0) =
         some i) ∧
    do_index_offsets [10, 20] 100 = [100, 110] ∧
    tool_do_index_offsets [10, 20] 100 = [110, 130] ∧
    decodeOneAt 100 [10, 20] ((tool_do_index_offsets [10, 20] 100).getD 0 0) =
      some 1 := by
  refine ⟨?_, ?_, by decide, by decide, by decide⟩
  · intro hdrSize sizes i hi
    exact do_index_offsets_getD sizes hdrSize i hi
  · intro hdrSize sizes i hi hpos
    unfold decodeOneAt
    simpa using seekDecodeFrom_offsets sizes hdrSize 0 i hi hpos

/-! ## Region parser: the `reg->chrom` buffer copy (C9)

`region_t.chrom` is a fixed `char[128]` buffer.  `parse_region`
(`src/vbi_index_capi.c:11-34`) fills it with `strncpy(reg->chrom, str,
sizeof(reg->chrom)-1); reg->chrom[127] = 0;` when the token has no
colon, and with `strncpy(reg->chrom, str, clen); reg->chrom[clen] = 0;`
(no length check) when the first colon sits at offset `clen`. -/

/-- The byte `strncpy(dst, src, n)` deposits at offset `j < n`: the
source byte while no NUL has been reached, `0` afterwards (`strncpy`
pads with NULs once the source is exhausted). -/
def strncpyByte (src : Bytes) (j : Nat) : Nat :=
  if (src.take (j + 1)).all (fun b => b != 0) then src.getD j 0 else 0

/-- The successive bytes `parse_region` writes into `reg->chrom`,
starting at buffer offset `0`: the `strncpy` bytes followed by the
explicitly assigned NUL terminator.  Both branches write contiguously
from offset `0`, so the byte at list position `j` is the write at
buffer offset `j`. -/
def parse_region_chrom_bytes (tok : Bytes) : List Nat :=
  match tok.findIdx? (fun b => b == 58) with
  | none => ((List.range 127).map (strncpyByte tok)) ++ [0]
  | some clen => ((List.range clen).map (strncpyByte tok)) ++ [0]

/-- The write events (buffer offset, byte) of the chrom copy. -/
def parse_region_chrom_writes (tok : Bytes) : List (Nat × Nat) :=
  (parse_region_chrom_bytes tok).enum

/-- The chromosome name stored in `reg->chrom` after `parse_region`:
the written bytes before the first NUL (the terminator write
guarantees a NUL is among them). -/
def parse_region_chrom (tok : Bytes) : Bytes :=
  (parse_region_chrom_bytes tok).takeWhile (fun b => b != 0)

/-- The chromosome part of a region token: the text before the first
`':'`, or the whole token when there is none. -/
def chromPart (tok : Bytes) : Bytes :=
  match tok.findIdx? (fun b => b == 58) with
  | none => tok
  | some clen => tok.take clen

theorem parse_region_chrom_bytes_none (tok : Bytes)
    (hfind : tok.findIdx? (fun b => b == 58) = none) :
    parse_region_chrom_bytes tok =
      ((List.range 127).map (strncpyByte tok)) ++ [0] := by
  unfold parse_region_chrom_bytes
  rw [hfind]

theorem parse_region_chrom_bytes_some (tok : Bytes) (clen : Nat)
    (hfind : tok.findIdx? (fun b => b == 58) = some clen) :
    parse_region_chrom_bytes tok =
      ((List.range clen).map (strncpyByte tok)) ++ [0] := by
  unfold parse_region_chrom_bytes
  rw [hfind]

theorem strncpyByte_eq_getD (tok : Bytes) (hnz : ∀ b ∈ tok, b ≠ 0) (j : Nat) :
    strncpyByte tok j = tok.getD j 0 := by
  unfold strncpyByte
  rw [if_pos]
  rw [List.all_eq_true]
  intro b hb
  have := hnz b (List.mem_of_mem_take hb)
  simpa using this

theorem map_getD_range_of_le (tok : Bytes) (n : Nat) (h : tok.length ≤ n) :
    (List.range n).map (fun j => tok.getD j 0) =
      tok ++ List.replicate (n - tok.length) 0 := by
  apply List.ext_getElem
  · simp
    omega
  · intro i h1 h2
    simp only [List.getElem_map, List.getElem_range]
    by_cases hi : i < tok.length
    · rw [List.getD_eq_getElem _ _ hi, List.getElem_append_left hi]
    · rw [List.getD_eq_default _ _ (by omega)]
      rw [List.getElem_append_right (by omega)]
      simp

theorem map_getD_range_of_ge (tok : Bytes) (n : Nat) (h : n ≤ tok.length) :
    (List.range n).map (fun j => tok.getD j 0) = tok.take n := by
  apply List.ext_getElem
  · simp
    omega
  · intro i h1 h2
    simp only [List.getElem_map, List.getElem_range, List.getElem_take]
    rw [List.getD_eq_getElem _ _ (by simp at h1; omega)]

theorem takeWhile_nonzero_append (tok rest : Bytes) (hnz : ∀ b ∈ tok, b ≠ 0) :
    (tok ++ 0 :: rest).takeWhile (fun b => b != 0) = tok := by
  induction tok with
  | nil => simp [List.takeWhile_cons]
  | cons b bs ih =>
    have hb : b ≠ 0 := hnz b (by simp)
    simp only [List.cons_append, List.takeWhile_cons]
    rw [if_pos (by simpa using hb)]
    rw [ih (fun x hx => hnz x (by simp [hx]))]

theorem replicate_zero_append_cons (m : Nat) :
    ∃ rest : Bytes, List.replicate m 0 ++ [0] = 0 :: rest := by
  cases m with
  | zero => exact ⟨[], rfl⟩
  | succ m => exact ⟨List.replicate m 0 ++ [0], by simp [List.replicate_succ]⟩

/-- **C9.** The region parser stores each token's chromosome name in
the fixed 128-byte `reg->chrom` buffer.  For every token whose
chromosome part (the text before the first `':'`, or the whole token
when there is none) is at most 127 bytes, the stored name equals that
part, with every write inside the buffer (offset `< 128`).  A
chromosome-only token longer than 127 bytes is silently truncated to
its first 127 bytes (writes still inside the buffer).  The colon
branch, however, performs no length check: it writes exactly the
buffer offsets `0 .. clen` whatever `clen` is, so a colon at offset
`≥ 128` makes it write outside the 128-byte buffer. -/
theorem parse_region_chrom_buffer (tok : Bytes) (hnz : ∀ b ∈ tok, b ≠ 0) :
    ((chromPart tok).length ≤ 127 →
       parse_region_chrom tok = chromPart tok ∧
       ∀ w ∈ parse_region_chrom_writes tok, w.1 < 128) ∧
    (tok.findIdx? (fun b => b == 58) = none → 127 < tok.length →
       parse_region_chrom tok = tok.take 127 ∧
       ∀ w ∈ parse_region_chrom_writes tok, w.1 < 128) ∧
    (∀ clen, tok.findIdx? (fun b => b == 58) = some clen →
       (parse_region_chrom_writes tok).map Prod.fst = List.range (clen + 1) ∧
       (128 ≤ clen → ∃ w ∈ parse_region_chrom_writes tok, 128 ≤ w.1)) := by
  have hwrites : ∀ clen, tok.findIdx? (fun b => b == 58) = some clen →
      (parse_region_chrom_writes tok).map Prod.fst = List.range (clen + 1) := by
    intro clen hfind
    unfold parse_region_chrom_writes
    rw [parse_region_chrom_bytes_some tok clen hfind]
    rw [List.enum_map_fst]
    simp
  have hmapeq : (List.range 127).map (strncpyByte tok) =
      (List.range 127).map (fun j => tok.getD j 0) :=
    List.map_congr_left (fun j _ => strncpyByte_eq_getD tok hnz j)
  refine ⟨?_, ?_, ?_⟩
  · intro hlen
    cases hfind : tok.findIdx? (fun b => b == 58) with
    | none =>
      have htok : chromPart tok = tok := by unfold chromPart; rw [hfind]
      rw [htok] at hlen ⊢
      constructor
      · unfold parse_region_chrom
        rw [parse_region_chrom_bytes_none tok hfind, hmapeq,
          map_getD_range_of_le tok 127 hlen]
        obtain ⟨rest, hrest⟩ := replicate_zero_append_cons (127 - tok.length)
        rw [List.append_assoc, hrest]
        exact takeWhile_nonzero_append tok rest hnz
      · intro w hw
        unfold parse_region_chrom_writes at hw
        rw [parse_region_chrom_bytes_none tok hfind] at hw
        have := List.fst_lt_of_mem_enum hw
        simp only [List.length_append, List.length_map, List.length_range,
          List.length_cons, List.length_nil] at this
        omega
    | some clen =>
      have hclen : clen < tok.length :=
        (List.findIdx?_eq_some_iff_findIdx_eq.mp hfind).1
      have htok : chromPart tok = tok.take clen := by
        unfold chromPart; rw [hfind]
      rw [htok] at hlen ⊢
      have hlen2 : clen ≤ 127 := by
        rw [List.length_take] at hlen
        omega
      constructor
      · unfold parse_region_chrom
        rw [parse_region_chrom_bytes_some tok clen hfind,
          List.map_congr_left (fun j _ => strncpyByte_eq_getD tok hnz j),
          map_getD_range_of_ge tok clen (by omega)]
        have := takeWhile_nonzero_append (tok.take clen) []
          (fun b hb => hnz b (List.mem_of_mem_take hb))
        simpa using this
      · intro w hw
        unfold parse_region_chrom_writes at hw
        rw [parse_region_chrom_bytes_some tok clen hfind] at hw
        have := List.fst_lt_of_mem_enum hw
        simp only [List.length_append, List.length_map, List.length_range,
          List.length_cons, List.length_nil] at this
        omega
  · intro hfind hlong
    constructor
    · unfold parse_region_chrom
      rw [parse_region_chrom_bytes_none tok hfind, hmapeq,
        map_getD_range_of_ge tok 127 (by omega)]
      have := takeWhile_nonzero_append (tok.take 127) []
        (fun b hb => hnz b (List.mem_of_mem_take hb))
      simpa using this
    · intro w hw
      unfold parse_region_chrom_writes at hw
      rw [parse_region_chrom_bytes_none tok hfind] at hw
      have := List.fst_lt_of_mem_enum hw
      simp only [List.length_append, List.length_map, List.length_range,
        List.length_cons, List.length_nil] at this
      omega
  · intro clen hfind
    refine ⟨hwrites clen hfind, ?_⟩
    intro hbig
    have hmem : clen ∈ (parse_region_chrom_writes tok).map Prod.fst := by
      rw [hwrites clen hfind]
      simp
    rw [List.mem_map] at hmem
    obtain ⟨w, hw, hweq⟩ := hmem
    exact ⟨w, hw, by omega⟩

def c9wTok : Bytes := [99, 104, 114, 49, 58, 49, 48, 48]

/-- Witness for C9 at the token `chr1:100`: the stored name equals the
chromosome part and every write stays inside the 128-byte buffer. -/
theorem parse_region_chrom_buffer_witness :
    parse_region_chrom c9wTok = chromPart c9wTok ∧
    ∀ w ∈ parse_region_chrom_writes c9wTok, w.1 < 128 :=
  (parse_region_chrom_buffer c9wTok (by decide)).1 (by decide)

/-! ## Record materializer (`vbi_query_variants_basic`, C6/C7/C10)

The materializer is modelled against an abstract decode oracle
`decodeAt : Int → Option BcfRec` standing for "seek the source file to
this stored offset and `bcf_read` one record"; `none` is a seek or
decode failure.  String renderings that involve C float formatting
(`%g` for INFO values, the genotype ploidy walk) are abstracted as the
record's pre-rendered aggregate strings — no claim concerns their
byte-level content. -/

/-- A decoded BCF record as `vbi_query_variants_basic`
(`src/RC_VBI_IOP.c:653-716`) consumes it. -/
structure BcfRec where
  chrom : Option Bytes
  pos0 : Int
  idStr : Bytes
  alleles : List Bytes
  qualMissing : Bool
  qualBits : Nat
  filters : List Bytes
  infoStr : Option Bytes
  fmtStr : Option Bytes
  gtStr : Option Bytes
  csqData : Option Bytes
  annData : Option Bytes
deriving DecidableEq, Repr

/-- A cell of the materialized data frame.  `na` is the missing-value
sentinel (`NA_STRING` / `NA_INTEGER` / `NA_REAL`); `nilval` is an
`R_NilValue` entry of a list column; `real` carries the opaque payload
of a non-missing quality float. -/
inductive Cell where
  | na : Cell
  | str : Bytes → Cell
  | int : Int → Cell
  | real : Nat → Cell
  | nilval : Cell
deriving DecidableEq, Repr

/-- The header as the materializer consults it: whether `##INFO` lines
with IDs `CSQ` / `ANN` are declared (`bcf_hdr_get_hrec` lookups,
`src/RC_VBI_IOP.c:614-615`). -/
structure Hdr where
  hasCsq : Bool
  hasAnn : Bool
deriving DecidableEq, Repr

/-- The session context `VBIVcfContext` (`src/RC_VBI_IOP.c:78-86`)
restricted to what the materializer touches: the parsed header, the
loaded index, and the seek-and-decode primitive over the open file. -/
structure VBIVcfContext where
  hdr : Hdr
  vbi_idx : VbiIndex
  decodeAt : Int → Option BcfRec

/-- `kputc`-joined byte strings with separator `sep`. -/
def joinBytes (sep : Nat) : List Bytes → Bytes
  | [] => []
  | [x] => x
  | x :: xs => x ++ sep :: joinBytes sep xs

def optStrCell : Option Bytes → Cell
  | some s => Cell.str s
  | none => Cell.na

/-- `chrom` cell of a decoded record: the header-resolved name, `NA`
when `bcf_hdr_id2name` returns NULL. -/
def chromCellOf (rec : BcfRec) : Cell :=
  match rec.chrom with
  | some c => Cell.str c
  | none => Cell.na

/-- `id` cell: `NA` when the record's id text is the conventional
unset marker `"."`. -/
def idCellOf (rec : BcfRec) : Cell :=
  if rec.idStr = [46] then Cell.na else Cell.str rec.idStr

/-- `ref` cell: the first allele, `NA` when the record has none. -/
def refCellOf (rec : BcfRec) : Cell :=
  match rec.alleles with
  | [] => Cell.na
  | a :: _ => Cell.str a

/-- `alt` cell: comma-joined alternate alleles, `"."` when there are
none beyond the reference, `NA` when the record has no alleles. -/
def altCellOf (rec : BcfRec) : Cell :=
  match rec.alleles with
  | [] => Cell.na
  | [_] => Cell.str [46]
  | _ :: alts => Cell.str (joinBytes 44 alts)

/-- `qual` cell: `NA` for the conventional missing float. -/
def qualCellOf (rec : BcfRec) : Cell :=
  if rec.qualMissing then Cell.na else Cell.real rec.qualBits

/-- `filter` cell: the literal `PASS` when no filters are set, else
the `';'`-joined filter names. -/
def filterCellOf (rec : BcfRec) : Cell :=
  if rec.filters = [] then Cell.str [80, 65, 83, 83]
  else Cell.str (joinBytes 59 rec.filters)

/-- Seek to the stored offset of record id `v` and decode one record
(`src/RC_VBI_IOP.c:655-663`): resolve `offsets[idx_var]`, seek, read. -/
def decodeHit (ctx : VBIVcfContext) (v : Int) : Option BcfRec :=
  ctx.decodeAt (ctx.vbi_idx.recs.getD v.toNat default).offset

/-- Core cells of the row for record id `v`: the failure arm is the
all-sentinel row of `src/RC_VBI_IOP.c:664-672`. -/
def chromCellAt (ctx : VBIVcfContext) (v : Int) : Cell :=
  match decodeHit ctx v with
  | none => Cell.na
  | some rec => chromCellOf rec

def posCellAt (ctx : VBIVcfContext) (v : Int) : Cell :=
  match decodeHit ctx v with
  | none => Cell.na
  | some rec => Cell.int (rec.pos0 + 1)

def idCellAt (ctx : VBIVcfContext) (v : Int) : Cell :=
  match decodeHit ctx v with
  | none => Cell.na
  | some rec => idCellOf rec

def refCellAt (ctx : VBIVcfContext) (v : Int) : Cell :=
  match decodeHit ctx v with
  | none => Cell.na
  | some rec => refCellOf rec

def altCellAt (ctx : VBIVcfContext) (v : Int) : Cell :=
  match decodeHit ctx v with
  | none => Cell.na
  | some rec => altCellOf rec

def qualCellAt (ctx : VBIVcfContext) (v : Int) : Cell :=
  match decodeHit ctx v with
  | none => Cell.na
  | some rec => qualCellOf rec

def filterCellAt (ctx : VBIVcfContext) (v : Int) : Cell :=
  match decodeHit ctx v with
  | none => Cell.na
  | some rec => filterCellOf rec

def nalleleCellAt (ctx : VBIVcfContext) (v : Int) : Cell :=
  match decodeHit ctx v with
  | none => Cell.na
  | some rec => Cell.int rec.alleles.length

def indexCellAt (ctx : VBIVcfContext) (v : Int) : Cell :=
  match decodeHit ctx v with
  | none => Cell.na
  | some _ => Cell.int (v + 1)

/-- `CSQ` entry: `R_NilValue` on the failure arm
(`src/RC_VBI_IOP.c:667`) and `R_NilValue` — a `// placeholder` — on
the success arm (`src/RC_VBI_IOP.c:686`), whatever the record holds. -/
def csqCellAt (ctx : VBIVcfContext) (v : Int) : Cell :=
  match decodeHit ctx v with
  | none => Cell.nilval
  | some _ => Cell.nilval

/-- `ANN` entry: as for `CSQ` (`src/RC_VBI_IOP.c:668` and `687`). -/
def annCellAt (ctx : VBIVcfContext) (v : Int) : Cell :=
  match decodeHit ctx v with
  | none => Cell.nilval
  | some _ => Cell.nilval

def infoCellAt (ctx : VBIVcfContext) (v : Int) : Cell :=
  match decodeHit ctx v with
  | none => Cell.na
  | some rec => optStrCell rec.infoStr

def fmtCellAt (ctx : VBIVcfContext) (v : Int) : Cell :=
  match decodeHit ctx v with
  | none => Cell.na
  | some rec => optStrCell rec.fmtStr

def gtCellAt (ctx : VBIVcfContext) (v : Int) : Cell :=
  match decodeHit ctx v with
  | none => Cell.na
  | some rec => optStrCell rec.gtStr

/-- The materialized data frame: named columns of equal length. -/
structure Df where
  cols : List (String × List Cell)
deriving DecidableEq, Repr

/-- The column layout of `vbi_query_variants_basic`: the nine core
columns, then `CSQ` / `ANN` exactly when the header declares them and
info inclusion was requested, then the flag-gated `INFO`,
`FORMAT_IDS` and `GT` columns (`src/RC_VBI_IOP.c:613-647,719-734`). -/
def colFns (ctx : VBIVcfContext) (inc_info inc_format inc_genotypes : Bool) :
    List (String × (Int → Cell)) :=
  [("chrom", chromCellAt ctx), ("pos", posCellAt ctx), ("id", idCellAt ctx),
   ("ref", refCellAt ctx), ("alt", altCellAt ctx), ("qual", qualCellAt ctx),
   ("filter", filterCellAt ctx), ("n_allele", nalleleCellAt ctx),
   ("index", indexCellAt ctx)] ++
  (if inc_info && ctx.hdr.hasCsq then [("CSQ", csqCellAt ctx)] else []) ++
  (if inc_info && ctx.hdr.hasAnn then [("ANN", annCellAt ctx)] else []) ++
  (if inc_info then [("INFO", infoCellAt ctx)] else []) ++
  (if inc_format then [("FORMAT_IDS", fmtCellAt ctx)] else []) ++
  (if inc_genotypes then [("GT", gtCellAt ctx)] else [])

/-- The shared materializer `vbi_query_variants_basic`
(`src/RC_VBI_IOP.c:601-742`): an empty hit set yields a data frame
with zero columns (and hence zero rows); otherwise every column is the
per-record cell function mapped over the ordered hit list — the loop
body's failure arm substitutes sentinels and `continue`s, it never
aborts the batch. -/
def vbi_query_variants_basic (ctx : VBIVcfContext) (hits : List Int)
    (inc_info inc_format inc_genotypes : Bool) : Df :=
  if hits.length ≤ 0 then ⟨[]⟩
  else ⟨(colFns ctx inc_info inc_format inc_genotypes).map fun c =>
    (c.1, hits.map c.2)⟩

/-- `RC_VBI_query_region` (`src/RC_VBI_IOP.c:919-943`): linear region
query, then materialization (its explicit `nfound == 0` early return
builds the same zero-column frame the helper builds). -/
def RC_VBI_query_region (ctx : VBIVcfContext) (regions : List Region)
    (inc_info inc_format inc_genotypes : Bool) : Df :=
  vbi_query_variants_basic ctx (vbi_index_query_region ctx.vbi_idx regions)
    inc_info inc_format inc_genotypes

/-- `RC_VBI_query_by_indices_ctx` (`src/RC_VBI_IOP.c:1259-1286`):
1-based index-range query, then materialization (its `end < start`
early return builds the same zero-column frame the helper builds). -/
def RC_VBI_query_by_indices_ctx (ctx : VBIVcfContext) (start1 end1 : Int)
    (inc_info inc_format inc_genotypes : Bool) : Df :=
  vbi_query_variants_basic ctx
    (queryByIndicesRange ctx.vbi_idx.recs.length start1 end1)
    inc_info inc_format inc_genotypes

theorem getD_map_cell (f : Int → Cell) (l : List Int) (k : Nat)
    (hk : k < l.length) :
    (l.map f).getD k Cell.na = f (l.getD k 0) := by
  rw [List.getD_eq_getElem _ _ (by simpa using hk), List.getElem_map,
    List.getD_eq_getElem _ _ hk]

theorem colFns_mem_fail (ctx : VBIVcfContext) (ii inf ig : Bool) (v : Int)
    (hfail : decodeHit ctx v = none) :
    ∀ p ∈ colFns ctx ii inf ig, p.2 v = Cell.na ∨ p.2 v = Cell.nilval := by
  intro p hp
  unfold colFns at hp
  rcases List.mem_append.mp hp with hp | hp
  · rcases List.mem_append.mp hp with hp | hp
    · rcases List.mem_append.mp hp with hp | hp
      · rcases List.mem_append.mp hp with hp | hp
        · rcases List.mem_append.mp hp with hp | hp
          · simp only [List.mem_cons, List.not_mem_nil, or_false] at hp
            rcases hp with rfl | rfl | rfl | rfl | rfl | rfl | rfl | rfl | rfl <;>
              simp [chromCellAt, posCellAt, idCellAt, refCellAt, altCellAt,
                qualCellAt, filterCellAt, nalleleCellAt, indexCellAt, hfail]
          · split at hp
            · simp only [List.mem_cons, List.not_mem_nil, or_false] at hp
              subst hp
              simp [csqCellAt, hfail]
            · simp at hp
        · split at hp
          · simp only [List.mem_cons, List.not_mem_nil, or_false] at hp
            subst hp
            simp [annCellAt, hfail]
          · simp at hp
      · split at hp
        · simp only [List.mem_cons, List.not_mem_nil, or_false] at hp
          subst hp
          simp [infoCellAt, hfail]
        · simp at hp
    · split at hp
      · simp only [List.mem_cons, List.not_mem_nil, or_false] at hp
        subst hp
        simp [fmtCellAt, hfail]
      · simp at hp
  · split at hp
    · simp only [List.mem_cons, List.not_mem_nil, or_false] at hp
      subst hp
      simp [gtCellAt, hfail]
    · simp at hp

/-- **C6.** For every batch materialization over an ordered list of
record ids, a seek or decode failure for a single id never aborts the
batch: every column of the result has exactly as many rows as there
are requested ids; a failing id's row holds only missing-value
sentinels (`NA`, or the `R_NilValue` entry of a `CSQ`/`ANN` list
column); the core columns are the per-record cell functions mapped
over the hit list in order, and on a successful decode those functions
populate the row from the decoded record. -/
theorem materializer_tolerates_per_record_failure
    (ctx : VBIVcfContext) (hits : List Int)
    (inc_info inc_format inc_genotypes : Bool) (hne : hits ≠ []) :
    (∀ c ∈ (vbi_query_variants_basic ctx hits inc_info inc_format
        inc_genotypes).cols, c.2.length = hits.length) ∧
    (∀ c ∈ (vbi_query_variants_basic ctx hits inc_info inc_format
        inc_genotypes).cols, ∀ k, k < hits.length →
       decodeHit ctx (hits.getD k 0) = none →
       c.2.getD k Cell.na = Cell.na ∨ c.2.getD k Cell.na = Cell.nilval) ∧
    (∃ rest, (vbi_query_variants_basic ctx hits inc_info inc_format
        inc_genotypes).cols =
      [("chrom", hits.map (chromCellAt ctx)), ("pos", hits.map (posCellAt ctx)),
       ("id", hits.map (idCellAt ctx)), ("ref", hits.map (refCellAt ctx)),
       ("alt", hits.map (altCellAt ctx)), ("qual", hits.map (qualCellAt ctx)),
       ("filter", hits.map (filterCellAt ctx)),
       ("n_allele", hits.map (nalleleCellAt ctx)),
       ("index", hits.map (indexCellAt ctx))] ++ rest) ∧
    (∀ v : Int, ∀ rec, decodeHit ctx v = some rec →
       chromCellAt ctx v = chromCellOf rec ∧
       posCellAt ctx v = Cell.int (rec.pos0 + 1) ∧
       idCellAt ctx v = idCellOf rec ∧
       refCellAt ctx v = refCellOf rec ∧
       altCellAt ctx v = altCellOf rec ∧
       qualCellAt ctx v = qualCellOf rec ∧
       filterCellAt ctx v = filterCellOf rec ∧
       nalleleCellAt ctx v = Cell.int rec.alleles.length ∧
       indexCellAt ctx v = Cell.int (v + 1)) := by
  have hlen0 : ¬ hits.length ≤ 0 := by
    have : hits.length ≠ 0 := fun h => hne (List.length_eq_zero.mp h)
    omega
  refine ⟨?_, ?_, ?_, ?_⟩
  · intro c hc
    unfold vbi_query_variants_basic at hc
    rw [if_neg hlen0] at hc
    rw [List.mem_map] at hc
    obtain ⟨p, hp, rfl⟩ := hc
    simp
  · intro c hc k hk hfail
    unfold vbi_query_variants_basic at hc
    rw [if_neg hlen0] at hc
    rw [List.mem_map] at hc
    obtain ⟨p, hp, rfl⟩ := hc
    simp only
    rw [getD_map_cell p.2 hits k hk]
    exact colFns_mem_fail ctx inc_info inc_format inc_genotypes
      (hits.getD k 0) hfail p hp
  · unfold vbi_query_variants_basic
    rw [if_neg hlen0]
    unfold colFns
    simp only [List.append_assoc, List.map_append, List.map_cons, List.map_nil]
    exact ⟨_, rfl⟩
  · intro v rec h
    refine ⟨?_, ?_, ?_, ?_, ?_, ?_, ?_, ?_, ?_⟩ <;>
      simp [chromCellAt, posCellAt, idCellAt, refCellAt, altCellAt, qualCellAt,
        filterCellAt, nalleleCellAt, indexCellAt, h]

def c6Rec : BcfRec :=
  ⟨some [99], 9, [114, 115, 49], [[65], [84]], false, 3, [], none, none,
    none, none, none⟩

def c6Idx : VbiIndex :=
  ⟨1, [[99]], [⟨0, 10, 0⟩, ⟨0, 20, 50⟩, ⟨0, 30, 999⟩, ⟨0, 40, 150⟩, ⟨0, 50, 200⟩]⟩

/-- A concrete session whose record with stored offset `999` (record
id 2) fails to decode — the corrupted-offset scenario. -/
def c6Ctx : VBIVcfContext :=
  ⟨⟨false, false⟩, c6Idx, fun o => if o = 999 then none else some c6Rec⟩

/-- Witness for C6: a batch over 5 ids with one corrupted offset still
yields 5 rows in the `chrom` column, and the corrupted id's cell there
is a sentinel. -/
theorem materializer_tolerates_per_record_failure_witness :
    ((vbi_query_variants_basic c6Ctx [0, 1, 2, 3, 4] false false
        false).cols.getD 0 ("", [])).2.length = 5 ∧
    (((vbi_query_variants_basic c6Ctx [0, 1, 2, 3, 4] false false
        false).cols.getD 0 ("", [])).2.getD 2 Cell.na = Cell.na ∨
      ((vbi_query_variants_basic c6Ctx [0, 1, 2, 3, 4] false false
        false).cols.getD 0 ("", [])).2.getD 2 Cell.na = Cell.nilval) := by
  have h := materializer_tolerates_per_record_failure c6Ctx [0, 1, 2, 3, 4]
    false false false (by decide)
  have hmem : (vbi_query_variants_basic c6Ctx [0, 1, 2, 3, 4] false false
      false).cols.getD 0 ("", []) ∈
      (vbi_query_variants_basic c6Ctx [0, 1, 2, 3, 4] false false
        false).cols := by decide
  exact ⟨h.1 _ hmem, h.2.1 _ hmem 2 (by decide) (by decide)⟩

/-! ## C7: the CSQ/ANN annotation columns -/

def c7Rec : BcfRec :=
  ⟨some [99], 99, [46], [[65], [71]], false, 0, [], none, none, none,
    some [104, 105], none⟩

def c7Idx : VbiIndex := ⟨0, [[99]], [⟨0, 100, 0⟩]⟩

/-- A session whose header declares `CSQ` and whose single record
decodes successfully, carrying CSQ data. -/
def c7Ctx : VBIVcfContext :=
  ⟨⟨true, false⟩, c7Idx, fun o => if o = 0 then some c7Rec else none⟩

/-- Counterexample to C7 as stated: with `CSQ` declared in the header,
info inclusion requested, and a successfully decoded record that
carries CSQ data, the materializer's `CSQ` entry is still the
`R_NilValue` placeholder — the field is not decoded and structured
into a sub-table, and the placeholder is not reserved for the
absent-field case. -/
theorem csq_entry_placeholder_despite_data :
    decodeHit c7Ctx 0 = some c7Rec ∧
    c7Rec.csqData ≠ none ∧
    (vbi_query_variants_basic c7Ctx [0] true false false).cols.getD 9 ("", []) =
      ("CSQ", [Cell.nilval]) := by
  refine ⟨by decide, by decide, by decide⟩

/-- **C7 (amended).** When the header declares one of the two
conventionally named annotation INFO fields (`CSQ` or `ANN`) and info
inclusion is requested, the materializer emits the corresponding
column, but every entry of it is the `R_NilValue` missing placeholder
— for failed and successfully decoded records alike; the field is
never decoded or structured into a sub-table. -/
theorem csq_ann_columns_always_placeholder
    (ctx : VBIVcfContext) (hits : List Int) (inc_format inc_genotypes : Bool)
    (hne : hits ≠ []) (hcsq : ctx.hdr.hasCsq = true) :
    (vbi_query_variants_basic ctx hits true inc_format
        inc_genotypes).cols.getD 9 ("", []) =
      ("CSQ", hits.map fun _ => Cell.nilval) ∧
    (∀ v : Int, csqCellAt ctx v = Cell.nilval) ∧
    (∀ v : Int, annCellAt ctx v = Cell.nilval) := by
  have hlen0 : ¬ hits.length ≤ 0 := by
    have : hits.length ≠ 0 := fun h => hne (List.length_eq_zero.mp h)
    omega
  have hcsqAt : ∀ v : Int, csqCellAt ctx v = Cell.nilval := by
    intro v
    unfold csqCellAt
    cases decodeHit ctx v <;> rfl
  have hannAt : ∀ v : Int, annCellAt ctx v = Cell.nilval := by
    intro v
    unfold annCellAt
    cases decodeHit ctx v <;> rfl
  refine ⟨?_, hcsqAt, hannAt⟩
  unfold vbi_query_variants_basic
  rw [if_neg hlen0]
  unfold colFns
  rw [hcsq]
  simp only [Bool.true_and, Bool.and_self, if_pos]
  simp only [List.append_assoc, List.map_append, List.map_cons, List.map_nil]
  have : hits.map (csqCellAt ctx) = hits.map fun _ => Cell.nilval :=
    List.map_congr_left fun v _ => hcsqAt v
  simp [this]

/-- Witness for the amended C7 at the concrete CSQ-declaring session. -/
theorem csq_ann_columns_always_placeholder_witness :
    (vbi_query_variants_basic c7Ctx [0] true false false).cols.getD 9 ("", []) =
      ("CSQ", [0].map fun _ => Cell.nilval) ∧
    csqCellAt c7Ctx 0 = Cell.nilval := by
  have h := csq_ann_columns_always_placeholder c7Ctx [0] false false
    (by decide) (by decide)
  exact ⟨h.1, h.2.1 0⟩

/-! ## C10: empty hit sets yield a zero-column, zero-row frame -/

/-- **C10.** A query whose hit set is empty — a region matching no
records, or an index range that clamps to empty — returns a data
frame with zero columns (hence zero rows), for the shared materializer
and for both public query paths; the core column schema is present
(as the first nine column names) exactly when at least one record id
is materialized. -/
theorem empty_hit_set_zero_column_frame (ctx : VBIVcfContext)
    (inc_info inc_format inc_genotypes : Bool) :
    ((vbi_query_variants_basic ctx [] inc_info inc_format
        inc_genotypes).cols = []) ∧
    (∀ regions, vbi_index_query_region ctx.vbi_idx regions = [] →
       (RC_VBI_query_region ctx regions inc_info inc_format
           inc_genotypes).cols = []) ∧
    (∀ start1 end1 : Int,
       queryByIndicesRange ctx.vbi_idx.recs.length start1 end1 = [] →
       (RC_VBI_query_by_indices_ctx ctx start1 end1 inc_info inc_format
           inc_genotypes).cols = []) ∧
    (∀ hits : List Int, hits ≠ [] →
       ((vbi_query_variants_basic ctx hits inc_info inc_format
           inc_genotypes).cols.map Prod.fst).take 9 =
         ["chrom", "pos", "id", "ref", "alt", "qual", "filter", "n_allele",
          "index"]) := by
  have hempty : (vbi_query_variants_basic ctx [] inc_info inc_format
      inc_genotypes).cols = [] := by
    unfold vbi_query_variants_basic
    rw [if_pos (by simp)]
  refine ⟨hempty, ?_, ?_, ?_⟩
  · intro regions hr
    unfold RC_VBI_query_region
    rw [hr]
    exact hempty
  · intro start1 end1 hr
    unfold RC_VBI_query_by_indices_ctx
    rw [hr]
    exact hempty
  · intro hits hne
    have hlen0 : ¬ hits.length ≤ 0 := by
      have : hits.length ≠ 0 := fun h => hne (List.length_eq_zero.mp h)
      omega
    unfold vbi_query_variants_basic
    rw [if_neg hlen0]
    unfold colFns
    simp only [List.append_assoc, List.map_append, List.map_cons, List.map_nil]
    rw [← List.map_append, ← List.map_append, ← List.map_append,
      ← List.map_append]
    exact List.take_left' rfl

def c10Ctx : VBIVcfContext := ⟨⟨false, false⟩, c1wIdx, fun _ => none⟩

/-- Witness for C10: the empty hit set and a region matching nothing
both give the zero-column frame; a singleton hit set carries the core
schema. -/
theorem empty_hit_set_zero_column_frame_witness :
    (vbi_query_variants_basic c10Ctx [] true true true).cols = [] ∧
    (RC_VBI_query_region c10Ctx [⟨[120], 1, 2, false⟩] true true true).cols = [] ∧
    ((vbi_query_variants_basic c10Ctx [0] true true true).cols.map
        Prod.fst).take 9 =
      ["chrom", "pos", "id", "ref", "alt", "qual", "filter", "n_allele",
       "index"] := by
  have h := empty_hit_set_zero_column_frame c10Ctx true true true
  exact ⟨h.1, h.2.1 [⟨[120], 1, 2, false⟩] (by decide),
    h.2.2.2 [0] (by decide)⟩

end RBCFLib
